import Mathlib

/-!
# Timeout.h : delayed and repeating callbacks

A shallow embedding of `src/Timeout.h` and the properties of its three constructors.

Every constructor of `Timeout` starts a detached thread that polls the system clock and
reads the fields `m_delay`, `m_endEarly` and `m_repeat` of the object through pointers,
while the owner may call `EndTimeout` and `SetDelay` at any moment.  The thread body is
sequential code, so it is embedded as a deterministic function of what it reads:

* `Env.clock i`    is the value of the `i`-th `GET_TIME(GET_CLOCK)` the thread evaluates,
* `Env.delay i`    is the value of `*pDelay` at the `i`-th evaluation of a wait-loop condition,
* `Env.endEarly i` is the value of `*pEndEarly` at the `i`-th poll.

Every interleaving of the thread with the owner's calls is one such environment.
`m_repeat` is written by the constructor only, so `*pCallRepeat` is a parameter.

Machine arithmetic: `GET_TIME` yields a 64-bit millisecond count which the code stores in an
`int`; `toInt32` is that narrowing and `sub32` the (two's complement) `int` subtraction.
`float` is IEEE binary32 with rounding to nearest, ties to even: `roundF32` gives the
binary32 value of an exact result, an infinity when it overflows.  The loop condition
converts `time2 - time1` to `float` and compares it with the rounded product
`*pDelay * 1000.0f`.  A delay is the rational value of a finite `float`; a delay that is a
NaN or an infinity is not part of the model.

The callback `Func(Args...)` is recorded in a log, one `Fire` entry per invocation.
Loops take a fuel argument: `fuel` bounds the number of cycles of the `do ... while` loop
and the number of condition checks of each wait loop.
-/

/-! ## The object and its two methods -/

/-- The data members of `class Timeout` (lines 58-60). -/
structure Timeout where
  m_delay : ℚ
  m_repeat : Bool
  m_endEarly : Bool
deriving DecidableEq

namespace Timeout

/-- `void Timeout::EndTimeout()` (lines 147-149): `m_endEarly = true;`. -/
def EndTimeout (t : Timeout) : Timeout :=
  { t with m_endEarly := true }

/-- `void Timeout::SetDelay(float DelayS)` (lines 151-153): `m_delay = DelayS;`. -/
def SetDelay (t : Timeout) (DelayS : ℚ) : Timeout :=
  { t with m_delay := DelayS }

/-- The object after the member initialisers of `Timeout(float DelayS, void (*Func)(Arg...), Arg...)`
(line 64): `m_delay(DelayS)`, the other two keep their defaults `false`. -/
def construct1 (DelayS : ℚ) : Timeout :=
  { m_delay := DelayS, m_repeat := false, m_endEarly := false }

/-- The object after the member initialisers of the two constructors that take `CallRepeat`
(lines 89 and 117): `m_delay(DelayS), m_repeat(CallRepeat)`. -/
def construct2 (DelayS : ℚ) (CallRepeat : Bool) : Timeout :=
  { m_delay := DelayS, m_repeat := CallRepeat, m_endEarly := false }

/-! ## Machine integers -/

/-- Conversion of an integer to the 32-bit `int` of the code (`int time1 = GET_TIME(clock1);`):
the value modulo `2^32`, taken in `[-2^31, 2^31)`. -/
def toInt32 (x : Int) : Int :=
  (x + 2147483648) % 4294967296 - 2147483648

/-- The `int` subtraction `time2 - time1`.  Where the exact difference does not fit an `int`
the C++ standard leaves the result undefined; the embedding takes the value two's
complement hardware gives. -/
def sub32 (a b : Int) : Int :=
  toInt32 (a - b)

/-! ## Binary32 arithmetic -/

/-- A binary32 value that is not a NaN: a rational, `⊤` for `+inf`, `⊥` for `-inf`. -/
abbrev F32 : Type := WithBot (WithTop ℚ)

/-- A finite binary32 value. -/
def F32.fin (q : ℚ) : F32 := ((q : WithTop ℚ) : WithBot (WithTop ℚ))

/-- The integer nearest to `x`, the even one of the two when `x` lies half way. -/
def roundHalfEven (x : ℚ) : Int :=
  if x - ⌊x⌋ < 1 / 2 then ⌊x⌋
  else if 1 / 2 < x - ⌊x⌋ then ⌊x⌋ + 1
  else if ⌊x⌋ % 2 = 0 then ⌊x⌋ else ⌊x⌋ + 1

/-- The exponent of the last place of the binary32 significand (24 bits) for a magnitude
`x`: `⌊log2 x⌋ - 23`, and `-149` throughout the subnormal range. -/
def ulpExp (x : ℚ) : Int :=
  max (-149) (Int.log 2 x - 23)

/-- A magnitude rounded to 24 significant bits, the exponent not bounded above. -/
def roundMag (x : ℚ) : ℚ :=
  (roundHalfEven (x / 2 ^ ulpExp x) : ℚ) * 2 ^ ulpExp x

/-- Rounding of sign and magnitude. -/
def roundQ (x : ℚ) : ℚ :=
  if x < 0 then -roundMag (-x) else roundMag x

/-- A rounded result of magnitude `2^128` or more is an infinity. -/
def overflow (r : ℚ) : F32 :=
  if 340282366920938463463374607431768211456 ≤ r then ⊤
  else if r ≤ -340282366920938463463374607431768211456 then ⊥
  else F32.fin r

/-- The binary32 value of the exact result `x`: what a `float` operation or a conversion to
`float` yields when its exact result is `x`. -/
def roundF32 (x : ℚ) : F32 :=
  overflow (roundQ x)

/-! ## What the thread reads -/

/-- The values the thread obtains from the clock and from the shared fields, in reading order. -/
structure Env where
  clock : Nat → Int
  delay : Nat → ℚ
  endEarly : Nat → Bool

/-- How many values of each stream the thread has consumed so far. -/
structure Cursor where
  clockReads : Nat
  delayReads : Nat
  flagReads : Nat
deriving DecidableEq

/-- One invocation `Func(Args...)`, with the values `time1` and `time2` held at that moment. -/
structure Fire where
  time1 : Int
  time2 : Int
deriving DecidableEq

/-- Result of one wait loop. -/
inductive Wait where
  | elapsed (time2 : Int) (cur : Cursor)
  | cancelled (cur : Cursor)
  | polling
deriving DecidableEq

/-- What the thread has done: the callback invocations so far, and `exit = some cur` when
the thread function has returned after consuming `cur`; `none` while it is still running
when the fuel ends. -/
structure Outcome where
  log : List Fire
  exit : Option Cursor
deriving DecidableEq

/-- The loop condition `time2 - time1 < *pDelay * 1000.0f` (lines 74, 101, 132): the `int`
difference is converted to `float` and compared with the `float` product. -/
@[irreducible]
def stillWaiting (time1 time2 : Int) (delay : ℚ) : Bool :=
  decide (roundF32 ((sub32 time2 time1 : Int) : ℚ) < roundF32 (delay * 1000))

/-- The wait loop, identical in the three thread bodies (lines 74-79, 101-106, 132-137):
```
while (time2 - time1 < *pDelay * 1000.0f) {
  clock2 = GET_CLOCK;  time2 = GET_TIME(clock2);
  if (*pEndEarly) return;
  Sleep(1);
}
```
`Sleep(1)` touches no variable of the thread: the time it takes shows in the next clock value. -/
def waitLoop (env : Env) (time1 : Int) : Nat → Int → Cursor → Wait
  | 0, _, _ => Wait.polling
  | fuel + 1, time2, cur =>
    if stillWaiting time1 time2 (env.delay cur.delayReads) then
      let time2 := toInt32 (env.clock cur.clockReads)
      if env.endEarly cur.flagReads then
        Wait.cancelled ⟨cur.clockReads + 1, cur.delayReads + 1, cur.flagReads + 1⟩
      else
        waitLoop env time1 fuel time2 ⟨cur.clockReads + 1, cur.delayReads + 1, cur.flagReads + 1⟩
    else
      Wait.elapsed time2 ⟨cur.clockReads, cur.delayReads + 1, cur.flagReads⟩

/-- The cursor at the very start of a thread. -/
def start : Cursor := ⟨0, 0, 0⟩

/-- Thread body of `Timeout(float DelayS, void (*Func)(Arg...), Arg... Args)` (lines 68-82):
read `time1`, read `time2`, wait, then `Func(Args...)`. -/
def threadOneShot (env : Env) (fuel : Nat) : Outcome :=
  let time1 := toInt32 (env.clock 0)
  let time2 := toInt32 (env.clock 1)
  match waitLoop env time1 fuel time2 ⟨2, 0, 0⟩ with
  | Wait.polling => ⟨[], none⟩
  | Wait.cancelled cur => ⟨[], some cur⟩
  | Wait.elapsed t2 cur => ⟨[⟨time1, t2⟩], some cur⟩

/-- The `do { ... } while (*pCallRepeat);` loop of the thread body of
`Timeout(float DelayS, bool CallRepeat, void (*Func)(Arg...), Arg... Args)` (lines 95-109),
from the start of a cycle. -/
def repeatCycles (env : Env) (m_repeat : Bool) : Nat → Cursor → List Fire → Outcome
  | 0, _, log => ⟨log, none⟩
  | fuel + 1, cur, log =>
    let time1 := toInt32 (env.clock cur.clockReads)
    let time2 := toInt32 (env.clock (cur.clockReads + 1))
    match waitLoop env time1 (fuel + 1) time2
        ⟨cur.clockReads + 2, cur.delayReads, cur.flagReads⟩ with
    | Wait.polling => ⟨log, none⟩
    | Wait.cancelled c => ⟨log, some c⟩
    | Wait.elapsed t2 c =>
      if m_repeat then repeatCycles env m_repeat fuel c (log ++ [⟨time1, t2⟩])
      else ⟨log ++ [⟨time1, t2⟩], some c⟩

/-- Thread body of the constructor with `CallRepeat` (lines 94-110). -/
def threadRepeat (env : Env) (m_repeat : Bool) (fuel : Nat) : Outcome :=
  repeatCycles env m_repeat fuel start []

/-- The value of the pointer `pCallRepeat` (which is `&m_repeat`) in the condition
`pCallRepeat && reps > 0` of line 140: a pointer converts to `true` when it is not null,
and the address of a member is never null.  The pointee is not read. -/
def pointerAsBool (_pointee : Bool) : Bool := true

/-- The `do { reps--; ... } while (pCallRepeat && reps > 0);` loop of the thread body of
`Timeout(float, bool, int RepeatCount, void (*Func)(Arg...), Arg...)` (lines 125-140),
from the start of a cycle with `reps` repetitions left. -/
def boundedCycles (env : Env) (m_repeat : Bool) : Nat → Int → Cursor → List Fire → Outcome
  | 0, _, _, log => ⟨log, none⟩
  | fuel + 1, reps, cur, log =>
    let reps := toInt32 (reps - 1)
    let time1 := toInt32 (env.clock cur.clockReads)
    let time2 := toInt32 (env.clock (cur.clockReads + 1))
    match waitLoop env time1 (fuel + 1) time2
        ⟨cur.clockReads + 2, cur.delayReads, cur.flagReads⟩ with
    | Wait.polling => ⟨log, none⟩
    | Wait.cancelled c => ⟨log, some c⟩
    | Wait.elapsed t2 c =>
      if pointerAsBool m_repeat && decide (reps > 0) then
        boundedCycles env m_repeat fuel reps c (log ++ [⟨time1, t2⟩])
      else ⟨log ++ [⟨time1, t2⟩], some c⟩

/-- Thread body of the constructor with `CallRepeat` and `RepeatCount` (lines 123-141):
`int reps = RepeatCount;` and the loop. -/
def threadBounded (env : Env) (m_repeat : Bool) (RepeatCount : Int) (fuel : Nat) : Outcome :=
  boundedCycles env m_repeat fuel RepeatCount start []

/-! ## Vocabulary for stating properties of a wait loop -/

/-- The value of `time2` at the `k`-th evaluation of the condition of a wait loop that was
entered with `time2` and cursor `cur`, provided the loop gets that far. -/
def time2At (env : Env) (time2 : Int) (cur : Cursor) : Nat → Int
  | 0 => time2
  | k + 1 => toInt32 (env.clock (cur.clockReads + k))

/-- The outcome of the `k`-th evaluation of the loop condition, provided the loop gets that far:
`true` when the body is entered once more. -/
def checkAt (env : Env) (time1 time2 : Int) (cur : Cursor) (k : Nat) : Bool :=
  stillWaiting time1 (time2At env time2 cur k) (env.delay (cur.delayReads + k))

/-- The cursor after `k` polls of a wait loop entered at `cur`. -/
def Cursor.afterPolls (cur : Cursor) (k : Nat) : Cursor :=
  ⟨cur.clockReads + k, cur.delayReads + k, cur.flagReads + k⟩

/-- The cursor with which the wait loop of a cycle is entered, when the cycle starts at `cur`:
the cycle has read `time1` and `time2`. -/
def Cursor.enterWait (cur : Cursor) : Cursor :=
  ⟨cur.clockReads + 2, cur.delayReads, cur.flagReads⟩

/-- The value `time2 - time1` that the `i`-th check of the wait loop sees, in the cycle that
starts at `cur`, provided the loop gets that far. -/
def cycleElapsed (env : Env) (cur : Cursor) (i : Nat) : Int :=
  sub32 (time2At env (toInt32 (env.clock (cur.clockReads + 1))) cur.enterWait i)
    (toInt32 (env.clock cur.clockReads))

/-- The outcome of the `i`-th check of the wait loop in the cycle that starts at `cur`. -/
def cycleCheck (env : Env) (cur : Cursor) (i : Nat) : Bool :=
  checkAt env (toInt32 (env.clock cur.clockReads)) (toInt32 (env.clock (cur.clockReads + 1)))
    cur.enterWait i

/-- The `Fire` entry of a cycle that starts at `cur` and whose wait ends at its `k`-th check. -/
def cycleFire (env : Env) (cur : Cursor) (k : Nat) : Fire :=
  ⟨toInt32 (env.clock cur.clockReads),
    time2At env (toInt32 (env.clock (cur.clockReads + 1))) cur.enterWait k⟩

/-- The cursor after a cycle that starts at `cur` and whose wait ends at its `k`-th check. -/
def Cursor.afterCycle (cur : Cursor) (k : Nat) : Cursor :=
  ⟨cur.clockReads + 2 + k, cur.delayReads + k + 1, cur.flagReads + k⟩

/-- `CycleStart env n cur`: a thread that is not cancelled starts cycle number `n` of its
`do ... while` loop at cursor `cur`.  The first cycle starts at `start`; a cycle whose wait
ends at its `k`-th check is followed by one that starts at `cur.afterCycle k`. -/
inductive CycleStart (env : Env) : Nat → Cursor → Prop where
  | first : CycleStart env 0 start
  | next (n : Nat) (cur : Cursor) (k : Nat) :
      CycleStart env n cur →
      (∀ i, i < k → cycleCheck env cur i = true) →
      cycleCheck env cur k = false →
      CycleStart env (n + 1) (cur.afterCycle k)

/-- Every wait elapses: in each cycle the thread starts, some check of the wait loop finds
the delay elapsed. -/
def everyWaitElapses (env : Env) : Prop :=
  ∀ (n : Nat) (cur : Cursor), CycleStart env n cur → ∃ k, cycleCheck env cur k = false

/-! ## Environments used in examples -/

/-- A clock that reads `base + i` milliseconds at the `i`-th reading. -/
def tickingClock (base : Int) : Nat → Int := fun i => base + i

/-- The thread of an object whose fields are `t` and on which the owner calls nothing. -/
def quietEnv (t : Timeout) (clock : Nat → Int) : Env :=
  { clock := clock, delay := fun _ => t.m_delay, endEarly := fun _ => t.m_endEarly }

/-- The owner calls nothing and the clock advances by one millisecond per reading, from a
start at `416 * 2^32` ms after the epoch (which the code stores as `time1 = 0`). -/
def steadyEnv (t : Timeout) : Env :=
  quietEnv t (tickingClock 1786706395136)

/-- The owner calls `EndTimeout` after the thread has polled `n` times. -/
def cancelAfter (t : Timeout) (n : Nat) : Env :=
  { clock := tickingClock 1786706395136,
    delay := fun _ => t.m_delay,
    endEarly := fun i => if i < n then t.m_endEarly else (EndTimeout t).m_endEarly }

/-- The owner calls `SetDelay newDelay` after the thread has checked its wait condition
`n` times. -/
def setDelayAfter (t : Timeout) (n : Nat) (newDelay : ℚ) : Env :=
  { clock := tickingClock 1786706395136,
    delay := fun i => if i < n then t.m_delay else (SetDelay t newDelay).m_delay,
    endEarly := fun _ => t.m_endEarly }

/-- The system clock is moved forward by `2^31` ms between any two readings of the thread. -/
def jumpingEnv (t : Timeout) : Env :=
  quietEnv t (fun i => 1786706395136 + 2147483648 * i)

/-! ## Machine integers -/

theorem toInt32_of_inRange (x : Int) (h1 : -2147483648 ≤ x) (h2 : x < 2147483648) :
    toInt32 x = x := by
  unfold toInt32; omega

theorem toInt32_lt (x : Int) : toInt32 x < 2147483648 := by
  unfold toInt32; omega

theorem toInt32_ge (x : Int) : -2147483648 ≤ toInt32 x := by
  unfold toInt32; omega

theorem sub32_toInt32 (a b : Int) : sub32 (toInt32 a) (toInt32 b) = toInt32 (a - b) := by
  unfold sub32 toInt32; omega

/-! ## Rounding -/

theorem floor_le_roundHalfEven (x : ℚ) : ⌊x⌋ ≤ roundHalfEven x := by
  unfold roundHalfEven
  split_ifs <;> omega

theorem roundHalfEven_le_floor_add_one (x : ℚ) : roundHalfEven x ≤ ⌊x⌋ + 1 := by
  unfold roundHalfEven
  split_ifs <;> omega

theorem roundHalfEven_intCast (n : Int) : roundHalfEven (n : ℚ) = n := by
  simp [roundHalfEven]

theorem roundHalfEven_mono {x y : ℚ} (h : x ≤ y) : roundHalfEven x ≤ roundHalfEven y := by
  have hf : ⌊x⌋ ≤ ⌊y⌋ := Int.floor_mono h
  rcases lt_or_eq_of_le hf with hlt | heq
  · calc roundHalfEven x ≤ ⌊x⌋ + 1 := roundHalfEven_le_floor_add_one x
      _ ≤ ⌊y⌋ := hlt
      _ ≤ roundHalfEven y := floor_le_roundHalfEven y
  · have hfx := floor_le_roundHalfEven x
    have hfy := roundHalfEven_le_floor_add_one y
    have hxy : x - ⌊x⌋ ≤ y - ⌊y⌋ := by rw [heq]; linarith
    unfold roundHalfEven
    rw [heq]
    rw [heq] at hxy
    split_ifs <;> first | omega | linarith

theorem roundHalfEven_eq {y : ℚ} {m : Int} (h1 : (m : ℚ) - 1 / 2 < y) (h2 : y < m + 1 / 2) :
    roundHalfEven y = m := by
  rcases le_or_lt (m : ℚ) y with hge | hlt
  · have hfl : ⌊y⌋ = m := by
      rw [Int.floor_eq_iff]
      constructor <;> linarith
    unfold roundHalfEven
    rw [hfl, if_pos (by linarith)]
  · have hfl : ⌊y⌋ = m - 1 := by
      rw [Int.floor_eq_iff]
      push_cast
      constructor <;> linarith
    unfold roundHalfEven
    rw [hfl]
    push_cast
    rw [if_neg (by linarith), if_pos (by linarith)]
    omega

theorem two_zpow_pos (e : Int) : (0 : ℚ) < 2 ^ e := zpow_pos (by norm_num) e

theorem log_eq_of_bounds {x : ℚ} {L : Int} (hx : 0 < x) (h1 : (2 : ℚ) ^ L ≤ x)
    (h2 : x < (2 : ℚ) ^ (L + 1)) : Int.log 2 x = L := by
  have a : L ≤ Int.log 2 x := by
    rw [← Int.zpow_le_iff_le_log (by norm_num) hx]
    simpa using h1
  have b : Int.log 2 x < L + 1 := by
    rw [← Int.lt_zpow_iff_log_lt (by norm_num) hx]
    simpa using h2
  omega

theorem roundMag_nonneg {x : ℚ} (hx : 0 ≤ x) : 0 ≤ roundMag x := by
  unfold roundMag
  apply mul_nonneg _ (two_zpow_pos _).le
  have h0 : (0 : ℚ) ≤ x / 2 ^ ulpExp x := div_nonneg hx (two_zpow_pos _).le
  have := roundHalfEven_mono h0
  rw [show (0 : ℚ) = ((0 : Int) : ℚ) by simp, roundHalfEven_intCast] at this
  exact_mod_cast this

theorem ulpExp_mono {x y : ℚ} (hx : 0 < x) (h : x ≤ y) : ulpExp x ≤ ulpExp y := by
  unfold ulpExp
  have := Int.log_mono_right (b := 2) hx h
  exact max_le_max (le_refl _) (by omega)

/-- A positive value rounds to at most `2 ^ (ulpExp x + 24)`. -/
theorem roundMag_le (x : ℚ) : roundMag x ≤ 2 ^ (ulpExp x + 24) := by
  have hlt : x < (2 : ℚ) ^ (Int.log 2 x + 1) := by
    simpa using Int.lt_zpow_succ_log_self (b := 2) (by norm_num) x
  have hle : Int.log 2 x + 1 ≤ ulpExp x + 24 := by
    have : Int.log 2 x - 23 ≤ ulpExp x := le_max_right _ _
    omega
  have hx2 : x ≤ (2 : ℚ) ^ (ulpExp x + 24) :=
    le_trans hlt.le (zpow_le_zpow_right₀ (by norm_num) hle)
  have hq : x / 2 ^ ulpExp x ≤ ((2 ^ 24 : Int) : ℚ) := by
    rw [div_le_iff₀ (two_zpow_pos _)]
    rw [zpow_add₀ (by norm_num)] at hx2
    push_cast
    linarith
  have hm := roundHalfEven_mono hq
  rw [roundHalfEven_intCast] at hm
  unfold roundMag
  rw [zpow_add₀ (by norm_num), mul_comm ((2 : ℚ) ^ ulpExp x)]
  apply mul_le_mul_of_nonneg_right _ (two_zpow_pos _).le
  exact_mod_cast hm

/-- A value in the normal range rounds to at least `2 ^ (ulpExp x + 23)`. -/
theorem le_roundMag {x : ℚ} (hx : 0 < x) (hn : -149 < ulpExp x) :
    2 ^ (ulpExp x + 23) ≤ roundMag x := by
  have he : ulpExp x = Int.log 2 x - 23 := by
    unfold ulpExp at hn ⊢
    rcases max_cases (-149 : Int) (Int.log 2 x - 23) with ⟨h, _⟩ | ⟨h, _⟩
    · rw [h] at hn; omega
    · exact h
  have hge : (2 : ℚ) ^ (ulpExp x + 23) ≤ x := by
    have := Int.zpow_log_le_self (b := 2) (by norm_num) hx
    rw [he]
    simpa using this
  have hq : ((2 ^ 23 : Int) : ℚ) ≤ x / 2 ^ ulpExp x := by
    rw [le_div_iff₀ (two_zpow_pos _)]
    rw [zpow_add₀ (by norm_num)] at hge
    push_cast
    linarith
  have hm := roundHalfEven_mono hq
  rw [roundHalfEven_intCast] at hm
  unfold roundMag
  rw [zpow_add₀ (by norm_num), mul_comm ((2 : ℚ) ^ ulpExp x)]
  apply mul_le_mul_of_nonneg_right _ (two_zpow_pos _).le
  exact_mod_cast hm

theorem roundMag_mono {x y : ℚ} (hx : 0 ≤ x) (h : x ≤ y) : roundMag x ≤ roundMag y := by
  rcases eq_or_lt_of_le hx with h0 | hpos
  · have hz : roundMag x = 0 := by
      rw [← h0]
      simp [roundMag, roundHalfEven]
    rw [hz]
    exact roundMag_nonneg (le_trans hx h)
  · have hy : 0 < y := lt_of_lt_of_le hpos h
    rcases lt_or_eq_of_le (ulpExp_mono hpos h) with hlt | heq
    · have hn : -149 < ulpExp y := lt_of_le_of_lt (le_max_left _ _) hlt
      calc roundMag x ≤ 2 ^ (ulpExp x + 24) := roundMag_le x
        _ ≤ 2 ^ (ulpExp y + 23) := zpow_le_zpow_right₀ (by norm_num) (by omega)
        _ ≤ roundMag y := le_roundMag hy hn
    · unfold roundMag
      rw [heq]
      apply mul_le_mul_of_nonneg_right _ (two_zpow_pos _).le
      have : x / 2 ^ ulpExp y ≤ y / 2 ^ ulpExp y :=
        div_le_div_of_nonneg_right h (two_zpow_pos _).le
      exact_mod_cast roundHalfEven_mono this

theorem roundQ_mono {x y : ℚ} (h : x ≤ y) : roundQ x ≤ roundQ y := by
  unfold roundQ
  split_ifs with hx hy hy
  · exact neg_le_neg (roundMag_mono (by linarith) (by linarith))
  · have a := roundMag_nonneg (x := -x) (by linarith)
    have b := roundMag_nonneg (x := y) (by linarith)
    linarith
  · linarith
  · exact roundMag_mono (by linarith) h

theorem overflow_mono {r s : ℚ} (h : r ≤ s) : overflow r ≤ overflow s := by
  unfold overflow
  split_ifs <;> first
    | exact le_top
    | exact bot_le
    | exact le_refl _
    | (exfalso; linarith)
    | (simp only [F32.fin, WithBot.coe_le_coe, WithTop.coe_le_coe]; exact h)

/-- Rounding to binary32 preserves the order. -/
theorem roundF32_mono {x y : ℚ} (h : x ≤ y) : roundF32 x ≤ roundF32 y :=
  overflow_mono (roundQ_mono h)

theorem ulpExp_eq {x : ℚ} {e : Int} (hx : 0 < x) (he : -149 ≤ e)
    (hlo : (2 : ℚ) ^ (e + 23) ≤ x ∨ e = -149) (hhi : x < (2 : ℚ) ^ (e + 24)) :
    ulpExp x = e := by
  unfold ulpExp
  rcases hlo with hlo | hlo
  · rw [log_eq_of_bounds hx hlo (by rw [show e + 23 + 1 = e + 24 by ring]; exact hhi)]
    rw [max_eq_right] <;> omega
  · have b : Int.log 2 x < e + 24 := by
      rw [← Int.lt_zpow_iff_log_lt (by norm_num) hx]
      simpa using hhi
    rw [max_eq_left] <;> omega

/-- The binary32 value of a positive rational `x`, from the exponent `e` of its last place
and the integer `m` nearest to `x / 2 ^ e`. -/
theorem roundF32_eval {x : ℚ} {e m : Int} (hx : 0 < x) (he : -149 ≤ e)
    (hlo : (2 : ℚ) ^ (e + 23) ≤ x ∨ e = -149) (hhi : x < (2 : ℚ) ^ (e + 24))
    (hm1 : (m : ℚ) - 1 / 2 < x / 2 ^ e) (hm2 : x / 2 ^ e < m + 1 / 2)
    (hfin : (m : ℚ) * 2 ^ e < 340282366920938463463374607431768211456) :
    roundF32 x = F32.fin (m * 2 ^ e) := by
  have hr : roundMag x = m * 2 ^ e := by
    unfold roundMag
    rw [ulpExp_eq hx he hlo hhi, roundHalfEven_eq hm1 hm2]
  have hnn := roundMag_nonneg hx.le
  unfold roundF32 roundQ
  rw [if_neg (by linarith), hr]
  unfold overflow
  rw [hr] at hnn
  rw [if_neg (by linarith), if_neg (by linarith)]

/-- The binary32 value of a negative rational `-x`. -/
theorem roundF32_neg_eval {x : ℚ} {e m : Int} (hx : 0 < x) (he : -149 ≤ e)
    (hlo : (2 : ℚ) ^ (e + 23) ≤ x ∨ e = -149) (hhi : x < (2 : ℚ) ^ (e + 24))
    (hm1 : (m : ℚ) - 1 / 2 < x / 2 ^ e) (hm2 : x / 2 ^ e < m + 1 / 2)
    (hfin : (m : ℚ) * 2 ^ e < 340282366920938463463374607431768211456) :
    roundF32 (-x) = F32.fin (-(m * 2 ^ e)) := by
  have hr : roundMag x = m * 2 ^ e := by
    unfold roundMag
    rw [ulpExp_eq hx he hlo hhi, roundHalfEven_eq hm1 hm2]
  have hnn := roundMag_nonneg hx.le
  unfold roundF32 roundQ
  rw [if_pos (by linarith), neg_neg, hr]
  unfold overflow
  rw [hr] at hnn
  rw [if_neg (by linarith), if_neg (by linarith)]

theorem roundF32_zero : roundF32 0 = F32.fin 0 := by
  simp only [roundF32, roundQ, roundMag, roundHalfEven, overflow]
  norm_num

theorem fin_lt_fin {a b : ℚ} : F32.fin a < F32.fin b ↔ a < b := by
  simp [F32.fin]

/-! ## The wait condition -/

theorem stillWaiting_eq_true_iff (time1 time2 : Int) (d : ℚ) :
    stillWaiting time1 time2 d = true
      ↔ roundF32 ((sub32 time2 time1 : Int) : ℚ) < roundF32 (d * 1000) := by
  simp [stillWaiting]

theorem stillWaiting_eq_false_iff (time1 time2 : Int) (d : ℚ) :
    stillWaiting time1 time2 d = false
      ↔ roundF32 (d * 1000) ≤ roundF32 ((sub32 time2 time1 : Int) : ℚ) := by
  simp [stillWaiting]

/-- Once `delay * 1000` ms have elapsed exactly, the condition of the code is false:
rounding preserves the order. -/
theorem stillWaiting_false_of_le (time1 time2 : Int) (d : ℚ)
    (h : d * 1000 ≤ ((sub32 time2 time1 : Int) : ℚ)) : stillWaiting time1 time2 d = false := by
  rw [stillWaiting_eq_false_iff]
  exact roundF32_mono h

/-! ## The wait loop -/

theorem waitLoop_exit (env : Env) (time1 time2 : Int) (cur : Cursor) (fuel : Nat)
    (h : stillWaiting time1 time2 (env.delay cur.delayReads) = false) :
    waitLoop env time1 (fuel + 1) time2 cur
      = Wait.elapsed time2 ⟨cur.clockReads, cur.delayReads + 1, cur.flagReads⟩ := by
  simp [waitLoop, h]

theorem waitLoop_cancel (env : Env) (time1 time2 : Int) (cur : Cursor) (fuel : Nat)
    (h : stillWaiting time1 time2 (env.delay cur.delayReads) = true)
    (hf : env.endEarly cur.flagReads = true) :
    waitLoop env time1 (fuel + 1) time2 cur = Wait.cancelled (cur.afterPolls 1) := by
  simp [waitLoop, h, hf, Cursor.afterPolls]

theorem waitLoop_poll (env : Env) (time1 time2 : Int) (cur : Cursor) (fuel : Nat)
    (h : stillWaiting time1 time2 (env.delay cur.delayReads) = true)
    (hf : env.endEarly cur.flagReads = false) :
    waitLoop env time1 (fuel + 1) time2 cur
      = waitLoop env time1 fuel (toInt32 (env.clock cur.clockReads)) (cur.afterPolls 1) := by
  simp [waitLoop, h, hf, Cursor.afterPolls]

theorem checkAt_succ (env : Env) (time1 time2 : Int) (cur : Cursor) (i : Nat) :
    checkAt env time1 time2 cur (i + 1)
      = checkAt env time1 (toInt32 (env.clock cur.clockReads)) (cur.afterPolls 1) i := by
  cases i with
  | zero => simp [checkAt, time2At, Cursor.afterPolls]
  | succ j =>
    simp only [checkAt, time2At, Cursor.afterPolls]
    rw [show cur.clockReads + 1 + j = cur.clockReads + (j + 1) by omega,
      show cur.delayReads + 1 + (j + 1) = cur.delayReads + (j + 1 + 1) by omega]

theorem afterPolls_afterPolls (cur : Cursor) (a b : Nat) :
    (cur.afterPolls a).afterPolls b = cur.afterPolls (a + b) := by
  simp [Cursor.afterPolls, Nat.add_assoc]

/-- While the condition holds and the flag reads false, the loop keeps polling. -/
theorem waitLoop_run (env : Env) (time1 : Int) (k : Nat) :
    ∀ (time2 : Int) (cur : Cursor),
      (∀ i, i < k → checkAt env time1 time2 cur i = true) →
      (∀ i, i < k → env.endEarly (cur.flagReads + i) = false) →
      ∀ fuel, waitLoop env time1 (fuel + k) time2 cur
        = waitLoop env time1 fuel (time2At env time2 cur k) (cur.afterPolls k) := by
  induction k with
  | zero =>
    intro time2 cur _ _ fuel
    simp [time2At, Cursor.afterPolls]
  | succ k ih =>
    intro time2 cur hc hf fuel
    have h0 : stillWaiting time1 time2 (env.delay cur.delayReads) = true := by
      simpa [checkAt, time2At] using hc 0 (Nat.succ_pos k)
    have hf0 : env.endEarly cur.flagReads = false := by
      simpa using hf 0 (Nat.succ_pos k)
    rw [show fuel + (k + 1) = (fuel + k) + 1 by omega, waitLoop_poll env time1 time2 cur _ h0 hf0]
    rw [ih (toInt32 (env.clock cur.clockReads)) (cur.afterPolls 1)
      (fun i hi => by rw [← checkAt_succ]; exact hc (i + 1) (Nat.succ_lt_succ hi))
      (fun i hi => by
        have := hf (i + 1) (Nat.succ_lt_succ hi)
        simpa [Cursor.afterPolls, Nat.add_assoc, Nat.add_comm 1 i] using this)
      fuel]
    rw [afterPolls_afterPolls, Nat.add_comm 1 k]
    congr 1
    cases k with
    | zero => simp [time2At]
    | succ j =>
      simp only [time2At, Cursor.afterPolls]
      rw [show cur.clockReads + 1 + j = cur.clockReads + (j + 1) by omega]

/-- The wait ends at the first check that finds the delay elapsed. -/
theorem waitLoop_elapsed_at (env : Env) (time1 time2 : Int) (cur : Cursor) (k : Nat)
    (hc : ∀ i, i < k → checkAt env time1 time2 cur i = true)
    (hf : ∀ i, i < k → env.endEarly (cur.flagReads + i) = false)
    (hk : checkAt env time1 time2 cur k = false) (fuel : Nat) (hfuel : k < fuel) :
    waitLoop env time1 fuel time2 cur
      = Wait.elapsed (time2At env time2 cur k)
          ⟨cur.clockReads + k, cur.delayReads + k + 1, cur.flagReads + k⟩ := by
  obtain ⟨m, rfl⟩ : ∃ m, fuel = (m + 1) + k := ⟨fuel - k - 1, by omega⟩
  rw [waitLoop_run env time1 k time2 cur hc hf (m + 1)]
  rw [waitLoop_exit]
  · simp [Cursor.afterPolls]
  · simpa [checkAt, Cursor.afterPolls] using hk

/-- The wait loop returns from the thread at the first poll that reads the flag as true. -/
theorem waitLoop_cancelled_at (env : Env) (time1 time2 : Int) (cur : Cursor) (k : Nat)
    (hc : ∀ i, i ≤ k → checkAt env time1 time2 cur i = true)
    (hf : ∀ i, i < k → env.endEarly (cur.flagReads + i) = false)
    (hk : env.endEarly (cur.flagReads + k) = true) (fuel : Nat) (hfuel : k < fuel) :
    waitLoop env time1 fuel time2 cur = Wait.cancelled (cur.afterPolls (k + 1)) := by
  obtain ⟨m, rfl⟩ : ∃ m, fuel = (m + 1) + k := ⟨fuel - k - 1, by omega⟩
  rw [waitLoop_run env time1 k time2 cur (fun i hi => hc i (Nat.le_of_lt hi)) hf (m + 1)]
  rw [waitLoop_cancel]
  · rw [afterPolls_afterPolls]
  · simpa [checkAt, Cursor.afterPolls] using hc k (Nat.le_refl k)
  · simpa [Cursor.afterPolls] using hk

/-! ## Cycles -/

theorem time2At_cycle (env : Env) (cur : Cursor) (i : Nat) :
    time2At env (toInt32 (env.clock (cur.clockReads + 1))) cur.enterWait i
      = toInt32 (env.clock (cur.clockReads + 1 + i)) := by
  cases i with
  | zero => simp [time2At]
  | succ j =>
    simp only [time2At, Cursor.enterWait]
    rw [show cur.clockReads + 2 + j = cur.clockReads + 1 + (j + 1) by omega]

theorem cycleElapsed_eq (env : Env) (cur : Cursor) (i : Nat) :
    cycleElapsed env cur i
      = toInt32 (env.clock (cur.clockReads + 1 + i) - env.clock cur.clockReads) := by
  rw [cycleElapsed, time2At_cycle, sub32_toInt32]

theorem cycleCheck_eq_stillWaiting (env : Env) (cur : Cursor) (i : Nat) :
    cycleCheck env cur i
      = stillWaiting (toInt32 (env.clock cur.clockReads))
          (toInt32 (env.clock (cur.clockReads + 1 + i))) (env.delay (cur.delayReads + i)) := by
  have h := time2At_cycle env cur i
  simp only [cycleCheck, checkAt, h]
  rfl

theorem cycleCheck_eq (env : Env) (cur : Cursor) (i : Nat) :
    cycleCheck env cur i
      = decide (roundF32 ((cycleElapsed env cur i : Int) : ℚ)
          < roundF32 (env.delay (cur.delayReads + i) * 1000)) := by
  simp [cycleCheck, checkAt, stillWaiting, cycleElapsed, Cursor.enterWait]

theorem cycleCheck_false_of_le (env : Env) (cur : Cursor) (i : Nat)
    (h : env.delay (cur.delayReads + i) * 1000 ≤ ((cycleElapsed env cur i : Int) : ℚ)) :
    cycleCheck env cur i = false := by
  rw [cycleCheck_eq]
  simpa using roundF32_mono h

/-- On a clock that advances 1 ms per reading the `i`-th check of a cycle sees `i + 1` ms. -/
theorem cycleElapsed_ticking (env : Env) (base : Int) (hc : env.clock = tickingClock base)
    (cur : Cursor) (i : Nat) (hi : i < 2147483647) :
    cycleElapsed env cur i = (i : Int) + 1 := by
  rw [cycleElapsed_eq, hc]
  simp only [tickingClock]
  unfold toInt32
  omega

theorem roundF32_two_pow_31 : roundF32 2147483648 = F32.fin 2147483648 := by
  have h := roundF32_eval (x := 2147483648) (e := 8) (m := 8388608)
    (by norm_num) (by norm_num) (Or.inl (by norm_num)) (by norm_num) (by norm_num) (by norm_num)
    (by norm_num)
  rw [h]
  norm_num

/-- The wait loop of a cycle, when its `k`-th check is the first to find the delay elapsed. -/
theorem waitLoop_cycle_elapsed (env : Env) (cur : Cursor) (k : Nat)
    (hc : ∀ i, i < k → cycleCheck env cur i = true)
    (hf : ∀ i, i < k → env.endEarly (cur.flagReads + i) = false)
    (hk : cycleCheck env cur k = false) (fuel : Nat) (hfuel : k < fuel) :
    waitLoop env (toInt32 (env.clock cur.clockReads)) fuel
        (toInt32 (env.clock (cur.clockReads + 1)))
        ⟨cur.clockReads + 2, cur.delayReads, cur.flagReads⟩
      = Wait.elapsed (cycleFire env cur k).time2 (cur.afterCycle k) := by
  have h := waitLoop_elapsed_at env (toInt32 (env.clock cur.clockReads))
    (toInt32 (env.clock (cur.clockReads + 1))) cur.enterWait k hc hf hk fuel hfuel
  simpa [Cursor.enterWait, cycleFire, Cursor.afterCycle] using h

/-- The wait loop of a cycle, when its `k`-th poll is the first to read the flag as true. -/
theorem waitLoop_cycle_cancelled (env : Env) (cur : Cursor) (k : Nat)
    (hc : ∀ i, i ≤ k → cycleCheck env cur i = true)
    (hf : ∀ i, i < k → env.endEarly (cur.flagReads + i) = false)
    (hk : env.endEarly (cur.flagReads + k) = true) (fuel : Nat) (hfuel : k < fuel) :
    waitLoop env (toInt32 (env.clock cur.clockReads)) fuel
        (toInt32 (env.clock (cur.clockReads + 1)))
        ⟨cur.clockReads + 2, cur.delayReads, cur.flagReads⟩
      = Wait.cancelled (cur.enterWait.afterPolls (k + 1)) := by
  have h := waitLoop_cancelled_at env (toInt32 (env.clock cur.clockReads))
    (toInt32 (env.clock (cur.clockReads + 1))) cur.enterWait k hc hf hk fuel hfuel
  simpa [Cursor.enterWait] using h

theorem threadOneShot_eq (env : Env) (fuel : Nat) :
    threadOneShot env fuel
      = match waitLoop env (toInt32 (env.clock start.clockReads)) fuel
          (toInt32 (env.clock (start.clockReads + 1)))
          ⟨start.clockReads + 2, start.delayReads, start.flagReads⟩ with
        | Wait.polling => ⟨[], none⟩
        | Wait.cancelled cur => ⟨[], some cur⟩
        | Wait.elapsed t2 cur => ⟨[⟨toInt32 (env.clock 0), t2⟩], some cur⟩ := by
  simp [threadOneShot, start]

/-- A wait whose `float` target exceeds `2^31` never ends while the flag reads false: an
`int` converts to a `float` of at most `2^31`. -/
theorem waitLoop_polling_of_large_delay (env : Env) (time1 : Int)
    (hd : ∀ i, F32.fin 2147483648 < roundF32 (env.delay i * 1000))
    (hf : ∀ i, env.endEarly i = false) :
    ∀ (fuel : Nat) (time2 : Int) (cur : Cursor), waitLoop env time1 fuel time2 cur = Wait.polling := by
  intro fuel
  induction fuel with
  | zero => intro time2 cur; simp [waitLoop]
  | succ n ih =>
    intro time2 cur
    have hs : stillWaiting time1 time2 (env.delay cur.delayReads) = true := by
      rw [stillWaiting_eq_true_iff]
      have h1 : sub32 time2 time1 ≤ 2147483648 := by
        have := toInt32_lt (time2 - time1)
        unfold sub32; omega
      have h2 : ((sub32 time2 time1 : Int) : ℚ) ≤ 2147483648 := by exact_mod_cast h1
      have h3 := roundF32_mono h2
      rw [roundF32_two_pow_31] at h3
      exact lt_of_le_of_lt h3 (hd _)
    rw [waitLoop_poll env time1 time2 cur n hs (hf _)]
    exact ih _ _

/-- When no poll reads the flag as true and the wait of the cycle that starts at `cur`
elapses, its wait loop ends at the first check `k` that finds the delay elapsed, given fuel
for it. -/
theorem wait_elapses (env : Env) (hnever : ∀ i, env.endEarly i = false) (cur : Cursor)
    (hw : ∃ k, cycleCheck env cur k = false) :
    ∃ k, (∀ i, i < k → cycleCheck env cur i = true) ∧ cycleCheck env cur k = false ∧
      ∀ fuel, k < fuel →
        waitLoop env (toInt32 (env.clock cur.clockReads)) fuel
            (toInt32 (env.clock (cur.clockReads + 1)))
            ⟨cur.clockReads + 2, cur.delayReads, cur.flagReads⟩
          = Wait.elapsed (cycleFire env cur k).time2 (cur.afterCycle k) := by
  classical
  have hmin : ∀ i, i < Nat.find hw → cycleCheck env cur i = true := by
    intro i hi
    have := Nat.find_min hw hi
    simpa using this
  exact ⟨Nat.find hw, hmin, Nat.find_spec hw, fun fuel hfuel =>
    waitLoop_cycle_elapsed env cur _ hmin (fun i _ => hnever _) (Nat.find_spec hw) fuel hfuel⟩

/-- One cycle of the bounded loop whose wait ends at check `k`. -/
theorem boundedCycles_step (env : Env) (m_repeat : Bool) (reps : Int) (cur : Cursor)
    (log : List Fire) (k n : Nat)
    (hw : waitLoop env (toInt32 (env.clock cur.clockReads)) (n + 1)
          (toInt32 (env.clock (cur.clockReads + 1)))
          ⟨cur.clockReads + 2, cur.delayReads, cur.flagReads⟩
        = Wait.elapsed (cycleFire env cur k).time2 (cur.afterCycle k)) :
    boundedCycles env m_repeat (n + 1) reps cur log
      = if toInt32 (reps - 1) > 0 then
          boundedCycles env m_repeat n (toInt32 (reps - 1)) (cur.afterCycle k)
            (log ++ [cycleFire env cur k])
        else ⟨log ++ [cycleFire env cur k], some (cur.afterCycle k)⟩ := by
  rw [boundedCycles]
  simp only [hw, pointerAsBool, Bool.true_and, decide_eq_true_eq]
  rfl

/-- The bounded loop never invokes the callback more than `max reps 1` further times. -/
theorem boundedCycles_log_le (env : Env) (m_repeat : Bool) :
    ∀ (fuel : Nat) (reps : Int) (cur : Cursor) (log : List Fire),
      -2147483648 < reps → reps < 2147483648 →
      ((boundedCycles env m_repeat fuel reps cur log).log.length : Int)
        ≤ (log.length : Int) + max reps 1 := by
  intro fuel
  induction fuel with
  | zero =>
    intro reps cur log _ _
    rw [boundedCycles]
    have := le_max_right reps 1
    show (log.length : Int) ≤ _
    omega
  | succ n ih =>
    intro reps cur log h1 h2
    have hr : toInt32 (reps - 1) = reps - 1 := toInt32_of_inRange _ (by omega) (by omega)
    have hm := le_max_right reps 1
    have hm2 := le_max_left reps 1
    rw [boundedCycles]
    simp only [hr, pointerAsBool, Bool.true_and, decide_eq_true_eq]
    split
    · simp only; omega
    · simp only; omega
    · split
      · rename_i hpos
        refine le_trans (ih _ _ _ (by omega) (by omega)) ?_
        have hm3 : max (reps - 1) 1 = reps - 1 := max_eq_left (by omega)
        rw [hm3]
        simp only [List.length_append, List.length_singleton]
        push_cast
        omega
      · simp only [List.length_append, List.length_singleton]
        push_cast
        omega

/-- The bounded loop entered with `n + 1` repetitions left, never cancelled and with every
wait elapsing, invokes the callback `n + 1` more times and returns. -/
theorem boundedCycles_counts (env : Env) (m_repeat : Bool)
    (hnever : ∀ i, env.endEarly i = false) (hw : everyWaitElapses env) :
    ∀ (n : Nat), (n : Int) + 1 < 2147483648 →
      ∀ (j : Nat) (cur : Cursor) (log : List Fire), CycleStart env j cur →
      ∃ N, ∀ fuel, N ≤ fuel → ∃ extra c,
        boundedCycles env m_repeat fuel ((n : Int) + 1) cur log = ⟨log ++ extra, some c⟩ ∧
        extra.length = n + 1 := by
  intro n
  induction n with
  | zero =>
    intro _ j cur log hj
    obtain ⟨k, _, _, hk⟩ := wait_elapses env hnever cur (hw j cur hj)
    refine ⟨k + 1, fun fuel hfuel => ?_⟩
    obtain ⟨f, rfl⟩ : ∃ f, fuel = f + 1 := ⟨fuel - 1, by omega⟩
    refine ⟨[cycleFire env cur k], cur.afterCycle k, ?_, rfl⟩
    rw [boundedCycles_step env m_repeat _ cur log k f (hk _ (by omega))]
    have : toInt32 (((0 : Nat) : Int) + 1 - 1) = 0 := by decide
    rw [this]
    simp
  | succ n ih =>
    intro hn j cur log hj
    obtain ⟨k, hlt, hkf, hk⟩ := wait_elapses env hnever cur (hw j cur hj)
    obtain ⟨N, hN⟩ := ih (by push_cast at hn; omega) (j + 1) (cur.afterCycle k)
      (log ++ [cycleFire env cur k]) (CycleStart.next j cur k hj hlt hkf)
    refine ⟨max (k + 1) (N + 1), fun fuel hfuel => ?_⟩
    obtain ⟨f, rfl⟩ : ∃ f, fuel = f + 1 :=
      ⟨fuel - 1, by have := le_max_left (k + 1) (N + 1); omega⟩
    have hfk : k < f + 1 := by have := le_max_left (k + 1) (N + 1); omega
    have hfN : N ≤ f := by have := le_max_right (k + 1) (N + 1); omega
    obtain ⟨extra, c, he, hl⟩ := hN f hfN
    refine ⟨cycleFire env cur k :: extra, c, ?_, by simp [hl]⟩
    rw [boundedCycles_step env m_repeat _ cur log k f (hk _ hfk)]
    have hr : toInt32 ((((n + 1 : Nat) : Int)) + 1 - 1) = (n : Int) + 1 := by
      rw [toInt32_of_inRange] <;> push_cast at hn ⊢ <;> omega
    rw [hr, if_pos (by omega), he]
    simp

/-- The bounded loop entered with no repetition left still runs one cycle. -/
theorem boundedCycles_zero (env : Env) (m_repeat : Bool)
    (hnever : ∀ i, env.endEarly i = false) (cur : Cursor) (log : List Fire)
    (hw : ∃ k, cycleCheck env cur k = false) :
    ∃ N, ∀ fuel, N ≤ fuel → ∃ extra c,
      boundedCycles env m_repeat fuel 0 cur log = ⟨log ++ extra, some c⟩ ∧
      extra.length = 1 := by
  obtain ⟨k, _, _, hk⟩ := wait_elapses env hnever cur hw
  refine ⟨k + 1, fun fuel hfuel => ?_⟩
  obtain ⟨f, rfl⟩ : ∃ f, fuel = f + 1 := ⟨fuel - 1, by omega⟩
  refine ⟨[cycleFire env cur k], cur.afterCycle k, ?_, rfl⟩
  rw [boundedCycles_step env m_repeat _ cur log k f (hk _ (by omega))]
  have : toInt32 ((0 : Int) - 1) = -1 := by decide
  rw [this]
  simp

/-- In each of the three thread bodies, if the `k`-th poll of a wait loop (every check up to
it entered the loop body) is the first to read `m_endEarly` as true, the thread returns at
that poll and the callback log is what it was when the cycle started. -/
theorem poll_reading_flag_returns (env : Env) (m_repeat : Bool) (reps : Int)
    (cur : Cursor) (log : List Fire) (k : Nat)
    (hentered : ∀ i, i ≤ k → cycleCheck env cur i = true)
    (hclear : ∀ i, i < k → env.endEarly (cur.flagReads + i) = false)
    (hflag : env.endEarly (cur.flagReads + k) = true)
    (fuel : Nat) (hfuel : k < fuel) :
    repeatCycles env m_repeat fuel cur log = ⟨log, some (cur.enterWait.afterPolls (k + 1))⟩ ∧
    boundedCycles env m_repeat fuel reps cur log
      = ⟨log, some (cur.enterWait.afterPolls (k + 1))⟩ ∧
    (cur = start →
      threadOneShot env fuel = ⟨[], some (start.enterWait.afterPolls (k + 1))⟩ ∧
      threadRepeat env m_repeat fuel = ⟨[], some (start.enterWait.afterPolls (k + 1))⟩ ∧
      threadBounded env m_repeat reps fuel
        = ⟨[], some (start.enterWait.afterPolls (k + 1))⟩) := by
  have hw := waitLoop_cycle_cancelled env cur k hentered hclear hflag
  obtain ⟨n, rfl⟩ : ∃ n, fuel = n + 1 := ⟨fuel - 1, by omega⟩
  have hr : ∀ lg, repeatCycles env m_repeat (n + 1) cur lg
      = ⟨lg, some (cur.enterWait.afterPolls (k + 1))⟩ := by
    intro lg
    simp only [repeatCycles, hw (n + 1) hfuel]
  have hb : ∀ lg, boundedCycles env m_repeat (n + 1) reps cur lg
      = ⟨lg, some (cur.enterWait.afterPolls (k + 1))⟩ := by
    intro lg
    simp only [boundedCycles, hw (n + 1) hfuel]
  refine ⟨hr log, hb log, ?_⟩
  intro hs
  subst hs
  refine ⟨?_, hr [], hb []⟩
  rw [threadOneShot_eq, hw (n + 1) hfuel]

/-- One cycle of the repeating loop whose wait ends at check `k`. -/
theorem repeatCycles_step (env : Env) (m_repeat : Bool) (cur : Cursor)
    (log : List Fire) (k n : Nat)
    (hw : waitLoop env (toInt32 (env.clock cur.clockReads)) (n + 1)
          (toInt32 (env.clock (cur.clockReads + 1)))
          ⟨cur.clockReads + 2, cur.delayReads, cur.flagReads⟩
        = Wait.elapsed (cycleFire env cur k).time2 (cur.afterCycle k)) :
    repeatCycles env m_repeat (n + 1) cur log
      = if m_repeat then
          repeatCycles env m_repeat n (cur.afterCycle k) (log ++ [cycleFire env cur k])
        else ⟨log ++ [cycleFire env cur k], some (cur.afterCycle k)⟩ := by
  rw [repeatCycles]
  simp only [hw]
  rfl

/-- The one-shot thread whose wait ends at check `k`. -/
theorem threadOneShot_of_elapsed (env : Env) (k : Nat)
    (hc : ∀ i, i < k → cycleCheck env start i = true)
    (hf : ∀ i, i < k → env.endEarly (start.flagReads + i) = false)
    (hk : cycleCheck env start k = false) (fuel : Nat) (hfuel : k < fuel) :
    threadOneShot env fuel = ⟨[cycleFire env start k], some (start.afterCycle k)⟩ := by
  rw [threadOneShot_eq, waitLoop_cycle_elapsed env start k hc hf hk fuel hfuel]
  rfl

/-- With a delay that is zero or negative, every cycle on the steady clock ends at its
first check. -/
theorem steady_nonpos_wait (t : Timeout) (ht : t.m_delay ≤ 0) (cur : Cursor) (n : Nat) :
    waitLoop (steadyEnv t) (toInt32 ((steadyEnv t).clock cur.clockReads)) (n + 1)
        (toInt32 ((steadyEnv t).clock (cur.clockReads + 1)))
        ⟨cur.clockReads + 2, cur.delayReads, cur.flagReads⟩
      = Wait.elapsed (cycleFire (steadyEnv t) cur 0).time2 (cur.afterCycle 0) := by
  refine waitLoop_cycle_elapsed (steadyEnv t) cur 0 (fun i hi => absurd hi (Nat.not_lt_zero i))
    (fun i hi => absurd hi (Nat.not_lt_zero i)) ?_ (n + 1) (Nat.succ_pos n)
  apply cycleCheck_false_of_le
  rw [cycleElapsed_ticking (steadyEnv t) 1786706395136 rfl cur 0 (by decide)]
  have : (steadyEnv t).delay (cur.delayReads + 0) = t.m_delay := rfl
  rw [this]
  push_cast
  linarith

theorem roundF32_one : roundF32 1 = F32.fin 1 := by
  have h := roundF32_eval (x := 1) (e := -23) (m := 8388608)
    (by norm_num) (by norm_num) (Or.inl (by norm_num)) (by norm_num) (by norm_num) (by norm_num)
    (by norm_num)
  rw [h]
  norm_num

theorem roundF32_six : roundF32 6 = F32.fin 6 := by
  have h := roundF32_eval (x := 6) (e := -21) (m := 12582912)
    (by norm_num) (by norm_num) (Or.inl (by norm_num)) (by norm_num) (by norm_num) (by norm_num)
    (by norm_num)
  rw [h]
  norm_num

theorem roundF32_seven : roundF32 7 = F32.fin 7 := by
  have h := roundF32_eval (x := 7) (e := -21) (m := 14680064)
    (by norm_num) (by norm_num) (Or.inl (by norm_num)) (by norm_num) (by norm_num) (by norm_num)
    (by norm_num)
  rw [h]
  norm_num

theorem roundF32_ten_thousand : roundF32 10000 = F32.fin 10000 := by
  have h := roundF32_eval (x := 10000) (e := -10) (m := 10240000)
    (by norm_num) (by norm_num) (Or.inl (by norm_num)) (by norm_num) (by norm_num) (by norm_num)
    (by norm_num)
  rw [h]
  norm_num

theorem roundF32_three_billion : roundF32 3000000000 = F32.fin 3000000000 := by
  have h := roundF32_eval (x := 3000000000) (e := 8) (m := 11718750)
    (by norm_num) (by norm_num) (Or.inl (by norm_num)) (by norm_num) (by norm_num) (by norm_num)
    (by norm_num)
  rw [h]
  norm_num

theorem roundF32_neg_two_pow_31 : roundF32 (-2147483648) = F32.fin (-2147483648) := by
  have h := roundF32_neg_eval (x := 2147483648) (e := 8) (m := 8388608)
    (by norm_num) (by norm_num) (Or.inl (by norm_num)) (by norm_num) (by norm_num) (by norm_num)
    (by norm_num)
  rw [h]
  norm_num

/-- The `float` nearest to 0.007, written `0.007f`. -/
theorem roundF32_seven_thousandths :
    roundF32 (7 / 1000) = F32.fin (7516193 / 1073741824) := by
  have h := roundF32_eval (x := 7 / 1000) (e := -31) (m := 15032386)
    (by norm_num) (by norm_num) (Or.inl (by norm_num)) (by norm_num) (by norm_num) (by norm_num)
    (by norm_num)
  rw [h]
  norm_num

/-- The `float` product `0.007f * 1000.0f` is `7.0f`, below the exact product. -/
theorem roundF32_seven_thousandths_mul :
    roundF32 (7516193 / 1073741824 * 1000) = F32.fin 7 := by
  have h := roundF32_eval (x := 7516193 / 1073741824 * 1000) (e := -21) (m := 14680064)
    (by norm_num) (by norm_num) (Or.inl (by norm_num)) (by norm_num) (by norm_num) (by norm_num)
    (by norm_num)
  rw [h]
  norm_num

/-! ## Claims -/

/-- C10. `EndTimeout` is idempotent: calling it twice leaves the fields as one call does,
with `m_endEarly` true and `m_delay`, `m_repeat` as they were. -/
theorem endTimeout_idempotent (t : Timeout) :
    EndTimeout (EndTimeout t) = EndTimeout t ∧
      (EndTimeout t).m_endEarly = true ∧
      (EndTimeout t).m_delay = t.m_delay ∧
      (EndTimeout t).m_repeat = t.m_repeat := by
  simp [EndTimeout]

/-- C7. With `CallRepeat = false` the constructor with two flags initialises the fields as
the one-shot constructor does, and its thread calls the callback at the same points and
returns at the same point as the one-shot thread, for every sequence of clock readings
and of values of `m_delay` and `m_endEarly` (every schedule of `EndTimeout` and `SetDelay`
calls) and at every fuel. -/
theorem repeat_false_behaves_as_oneShot (DelayS : ℚ) (env : Env) (fuel : Nat) :
    construct2 DelayS false = construct1 DelayS ∧
      threadRepeat env (construct2 DelayS false).m_repeat fuel = threadOneShot env fuel := by
  refine ⟨rfl, ?_⟩
  cases fuel with
  | zero => simp [threadRepeat, repeatCycles, threadOneShot, waitLoop]
  | succ n =>
    simp only [threadRepeat, repeatCycles, threadOneShot, start, construct2]
    cases waitLoop env (toInt32 (env.clock 0)) (n + 1) (toInt32 (env.clock 1)) ⟨2, 0, 0⟩ <;> simp

/-- C3, the code at the failing input: a timer with the positive delay `2^-11` s (0.49 ms)
whose flag `m_endEarly` is true before the thread reads anything, on a clock that advances
1 ms per reading.  The first check of the wait condition already finds the delay elapsed,
the loop body with the only reading of the flag is skipped, and the callback is invoked, in
each of the three thread bodies. -/
theorem cancelled_short_delay_still_fires :
    roundF32 (1 / 2048) = F32.fin (1 / 2048) ∧
    (0 : ℚ) < (construct2 (1 / 2048) true).m_delay ∧
    (∀ i, (cancelAfter (construct2 (1 / 2048) true) 0).endEarly i = true) ∧
    threadOneShot (cancelAfter (construct1 (1 / 2048)) 0) 1 = ⟨[⟨0, 1⟩], some ⟨2, 1, 0⟩⟩ ∧
    threadRepeat (cancelAfter (construct2 (1 / 2048) true) 0) true 1 = ⟨[⟨0, 1⟩], none⟩ ∧
    threadBounded (cancelAfter (construct2 (1 / 2048) true) 0) true 3 1 = ⟨[⟨0, 1⟩], none⟩ := by
  have hfloat : roundF32 (1 / 2048) = F32.fin (1 / 2048) := by
    have h := roundF32_eval (x := 1 / 2048) (e := -34) (m := 8388608)
      (by norm_num) (by norm_num) (Or.inl (by norm_num)) (by norm_num) (by norm_num)
      (by norm_num) (by norm_num)
    rw [h]
    norm_num
  have hk : ∀ (t : Timeout), t.m_delay = 1 / 2048 →
      cycleCheck (cancelAfter t 0) start 0 = false := by
    intro t ht
    apply cycleCheck_false_of_le
    rw [cycleElapsed_ticking (cancelAfter t 0) 1786706395136 rfl start 0 (by decide)]
    have : (cancelAfter t 0).delay (start.delayReads + 0) = t.m_delay := rfl
    rw [this, ht]
    norm_num
  have hw : ∀ (t : Timeout), t.m_delay = 1 / 2048 →
      waitLoop (cancelAfter t 0) (toInt32 ((cancelAfter t 0).clock start.clockReads)) 1
        (toInt32 ((cancelAfter t 0).clock (start.clockReads + 1)))
        ⟨start.clockReads + 2, start.delayReads, start.flagReads⟩
      = Wait.elapsed (cycleFire (cancelAfter t 0) start 0).time2 (start.afterCycle 0) :=
    fun t ht => waitLoop_cycle_elapsed (cancelAfter t 0) start 0
      (fun i hi => absurd hi (Nat.not_lt_zero i)) (fun i hi => absurd hi (Nat.not_lt_zero i))
      (hk t ht) 1 (by decide)
  refine ⟨hfloat, by norm_num [construct2], fun i => by simp [cancelAfter, EndTimeout], ?_, ?_, ?_⟩
  · rw [threadOneShot_of_elapsed _ 0 (fun i hi => absurd hi (Nat.not_lt_zero i))
      (fun i hi => absurd hi (Nat.not_lt_zero i)) (hk _ rfl) 1 (by decide)]
    decide
  · rw [threadRepeat, repeatCycles_step _ true start [] 0 0 (hw _ rfl), if_pos rfl, repeatCycles]
    decide
  · rw [threadBounded, boundedCycles_step _ true 3 start [] 0 0 (hw _ rfl),
      if_pos (by decide), boundedCycles]
    decide

/-- C1, as amended. One-shot thread with delay `d` that is never cancelled: if reading
`j + 1` of the clock lies at least `d * 1000` ms after the start reading, and every reading up
to it lies less than `2^31` ms from the start reading (so that the `int` difference the
code computes is the elapsed time), then the callback is invoked exactly once and the
thread returns.  The invocation follows the first reading `k + 1` whose elapsed time,
converted to `float`, is not below the `float` product `d * 1000.0f`; that reading is
reading `j + 1` or an earlier one. -/
theorem oneShot_fires_once_after_delay (env : Env) (d : ℚ) (j : Nat)
    (hnever : ∀ i, env.endEarly i = false)
    (hdelay : ∀ i, env.delay i = d)
    (hreach : d * 1000 ≤ ((env.clock (j + 1) - env.clock 0 : Int) : ℚ))
    (hrange : ∀ i, i ≤ j → -2147483648 ≤ env.clock (i + 1) - env.clock 0 ∧
      env.clock (i + 1) - env.clock 0 < 2147483648) :
    ∃ k, k ≤ j ∧
      roundF32 (d * 1000) ≤ roundF32 ((env.clock (k + 1) - env.clock 0 : Int) : ℚ) ∧
      (∀ i, i < k →
        roundF32 ((env.clock (i + 1) - env.clock 0 : Int) : ℚ) < roundF32 (d * 1000)) ∧
      ∀ fuel, k < fuel →
        threadOneShot env fuel
          = ⟨[⟨toInt32 (env.clock 0), toInt32 (env.clock (k + 1))⟩], some ⟨k + 2, k + 1, k⟩⟩ := by
  classical
  have hex : ∃ n, roundF32 (d * 1000)
      ≤ roundF32 ((env.clock (n + 1) - env.clock 0 : Int) : ℚ) := ⟨j, roundF32_mono hreach⟩
  have hkj : Nat.find hex ≤ j := Nat.find_min' hex (roundF32_mono hreach)
  have hel : ∀ i, i ≤ j → cycleElapsed env start i = env.clock (i + 1) - env.clock 0 := by
    intro i hi
    rw [cycleElapsed_eq]
    simp only [start, Nat.zero_add]
    rw [Nat.add_comm 1 i]
    exact toInt32_of_inRange _ (hrange i hi).1 (hrange i hi).2
  refine ⟨Nat.find hex, hkj, Nat.find_spec hex, ?_, ?_⟩
  · intro i hi
    exact lt_of_not_ge (Nat.find_min hex hi)
  · intro fuel hfuel
    have hc : ∀ i, i < Nat.find hex → cycleCheck env start i = true := by
      intro i hi
      rw [cycleCheck_eq, hel i (by omega), hdelay]
      simpa using lt_of_not_ge (Nat.find_min hex hi)
    have hk : cycleCheck env start (Nat.find hex) = false := by
      rw [cycleCheck_eq, hel _ hkj, hdelay]
      simpa using Nat.find_spec hex
    rw [threadOneShot_of_elapsed env _ hc (fun i _ => hnever _) hk fuel hfuel]
    have ht := time2At_cycle env start (Nat.find hex)
    simp only [start, Nat.zero_add] at ht
    simp only [cycleFire, Cursor.afterCycle, start, Nat.zero_add, ht]
    simp [Nat.add_comm]

/-- Witness for C1: a timer of `2^-7` s (7.8125 ms) on a clock that advances 1 ms per
reading fires once, no later than the reading that lies 8 ms after the start. -/
theorem oneShot_fires_once_after_delay_witness :
    ∃ k, k ≤ 7 ∧
      roundF32 ((1 / 128 : ℚ) * 1000)
        ≤ roundF32 (((steadyEnv (construct1 (1 / 128))).clock (k + 1)
            - (steadyEnv (construct1 (1 / 128))).clock 0 : Int) : ℚ) ∧
      (∀ i, i < k →
        roundF32 (((steadyEnv (construct1 (1 / 128))).clock (i + 1)
            - (steadyEnv (construct1 (1 / 128))).clock 0 : Int) : ℚ)
          < roundF32 ((1 / 128 : ℚ) * 1000)) ∧
      ∀ fuel, k < fuel →
        threadOneShot (steadyEnv (construct1 (1 / 128))) fuel
          = ⟨[⟨toInt32 ((steadyEnv (construct1 (1 / 128))).clock 0),
                toInt32 ((steadyEnv (construct1 (1 / 128))).clock (k + 1))⟩],
              some ⟨k + 2, k + 1, k⟩⟩ :=
  oneShot_fires_once_after_delay (steadyEnv (construct1 (1 / 128))) (1 / 128) 7
    (fun _ => rfl) (fun _ => rfl)
    (by norm_num [steadyEnv, quietEnv, tickingClock])
    (fun i hi => by
      simp only [steadyEnv, quietEnv, tickingClock]
      constructor <;> omega)

/-- Counterexample to C1 as stated, in two instances, each on a clock that advances 1 ms per
reading and never cancelled.  A one-shot timer of 3000000 s: the clock readings reach the
start plus 3000000000 ms, yet the callback is never invoked and the thread never returns,
because `time2 - time1` is an `int`.  A one-shot timer of `0.007f` s, the `float`
7516193 / 2^30: the callback is invoked after the reading that lies 7 ms after the start,
when no reading has reached `d * 1000` ms, because the `float` product is `7.0f`. -/
theorem oneShot_delay_limits :
    ((∀ i, (steadyEnv (construct1 3000000)).endEarly i = false) ∧
      (∀ i, (steadyEnv (construct1 3000000)).delay i = 3000000) ∧
      (3000000 : ℚ) * 1000
        ≤ (((steadyEnv (construct1 3000000)).clock 3000000000
            - (steadyEnv (construct1 3000000)).clock 0 : Int) : ℚ) ∧
      ∀ fuel, threadOneShot (steadyEnv (construct1 3000000)) fuel = ⟨[], none⟩) ∧
    (roundF32 (7516193 / 1073741824) = F32.fin (7516193 / 1073741824) ∧
      (∀ i, (steadyEnv (construct1 (7516193 / 1073741824))).endEarly i = false) ∧
      threadOneShot (steadyEnv (construct1 (7516193 / 1073741824))) 7
        = ⟨[⟨0, 7⟩], some ⟨8, 7, 6⟩⟩ ∧
      (∀ i, i ≤ 7 →
        (((steadyEnv (construct1 (7516193 / 1073741824))).clock i
            - (steadyEnv (construct1 (7516193 / 1073741824))).clock 0 : Int) : ℚ)
          < (7516193 / 1073741824 : ℚ) * 1000)) := by
  refine ⟨⟨fun _ => rfl, fun _ => rfl, ?_, ?_⟩, ?_, fun _ => rfl, ?_, ?_⟩
  · norm_num [steadyEnv, quietEnv, tickingClock]
  · intro fuel
    rw [threadOneShot_eq, waitLoop_polling_of_large_delay]
    · intro i
      have : (steadyEnv (construct1 3000000)).delay i * 1000 = 3000000000 := by
        norm_num [steadyEnv, quietEnv, construct1]
      rw [this, roundF32_three_billion, fin_lt_fin]
      norm_num
    · intro i
      rfl
  · have h := roundF32_eval (x := 7516193 / 1073741824) (e := -31) (m := 15032386)
      (by norm_num) (by norm_num) (Or.inl (by norm_num)) (by norm_num) (by norm_num)
      (by norm_num) (by norm_num)
    rw [h]
    norm_num
  · have hd : ∀ i, (steadyEnv (construct1 (7516193 / 1073741824))).delay i * 1000
        = 7516193 / 1073741824 * 1000 := fun _ => rfl
    rw [threadOneShot_of_elapsed _ 6 ?_ (fun i _ => rfl) ?_ 7 (by decide)]
    · decide
    · intro i hi
      rw [cycleCheck_eq, cycleElapsed_ticking _ 1786706395136 rfl start i (by omega), hd,
        roundF32_seven_thousandths_mul]
      have h6 : ((((i : Int) + 1 : Int)) : ℚ) ≤ 6 := by
        exact_mod_cast (by omega : (i : Int) + 1 ≤ 6)
      have := roundF32_mono h6
      rw [roundF32_six] at this
      have h67 : F32.fin 6 < F32.fin 7 := by rw [fin_lt_fin]; norm_num
      simpa using lt_of_le_of_lt this h67
    · rw [cycleCheck_eq, cycleElapsed_ticking _ 1786706395136 rfl start 6 (by decide), hd,
        roundF32_seven_thousandths_mul]
      have : ((((6 : Nat) : Int) + 1 : Int) : ℚ) = 7 := by norm_num
      rw [this, roundF32_seven]
      simp
  · intro i hi
    have : (((steadyEnv (construct1 (7516193 / 1073741824))).clock i
        - (steadyEnv (construct1 (7516193 / 1073741824))).clock 0 : Int) : ℚ) = (i : ℚ) := by
      simp [steadyEnv, quietEnv, tickingClock]
    rw [this]
    have hi7 : (i : ℚ) ≤ 7 := by exact_mod_cast hi
    have : (7 : ℚ) < 7516193 / 1073741824 * 1000 := by norm_num
    linarith

/-- C9, as amended. If the delay read at the first check of a wait cycle is zero or negative
and the current clock reading is not before the start reading and less than `2^31` ms after
it, the first check ends the wait: the loop body is not entered (no clock reading and no
flag reading is consumed), the one-shot thread invokes the callback at once, and the wait
loop does the same under the delay zero; the two repeating threads invoke the callback at
that check as well and go on to their loop test. -/
theorem nonpositive_delay_fires_at_first_check (env : Env) (cur : Cursor) (fuel : Nat)
    (hd : env.delay cur.delayReads ≤ 0)
    (hmono : env.clock cur.clockReads ≤ env.clock (cur.clockReads + 1))
    (hgap : env.clock (cur.clockReads + 1) - env.clock cur.clockReads < 2147483648) :
    waitLoop env (toInt32 (env.clock cur.clockReads)) (fuel + 1)
        (toInt32 (env.clock (cur.clockReads + 1))) cur.enterWait
      = Wait.elapsed (toInt32 (env.clock (cur.clockReads + 1)))
          ⟨cur.clockReads + 2, cur.delayReads + 1, cur.flagReads⟩ ∧
    waitLoop { env with delay := fun _ => 0 } (toInt32 (env.clock cur.clockReads)) (fuel + 1)
        (toInt32 (env.clock (cur.clockReads + 1))) cur.enterWait
      = waitLoop env (toInt32 (env.clock cur.clockReads)) (fuel + 1)
        (toInt32 (env.clock (cur.clockReads + 1))) cur.enterWait ∧
    (cur = start →
      threadOneShot env (fuel + 1)
        = ⟨[⟨toInt32 (env.clock 0), toInt32 (env.clock 1)⟩], some ⟨2, 1, 0⟩⟩) ∧
    (∀ (m_repeat : Bool) (log : List Fire),
      repeatCycles env m_repeat (fuel + 1) cur log
        = if m_repeat then
            repeatCycles env m_repeat fuel (cur.afterCycle 0) (log ++ [cycleFire env cur 0])
          else ⟨log ++ [cycleFire env cur 0], some (cur.afterCycle 0)⟩) ∧
    (∀ (m_repeat : Bool) (reps : Int) (log : List Fire),
      boundedCycles env m_repeat (fuel + 1) reps cur log
        = if toInt32 (reps - 1) > 0 then
            boundedCycles env m_repeat fuel (toInt32 (reps - 1)) (cur.afterCycle 0)
              (log ++ [cycleFire env cur 0])
          else ⟨log ++ [cycleFire env cur 0], some (cur.afterCycle 0)⟩) := by
  have he : 0 ≤ sub32 (toInt32 (env.clock (cur.clockReads + 1)))
      (toInt32 (env.clock cur.clockReads)) := by
    rw [sub32_toInt32, toInt32_of_inRange _ (by omega) hgap]
    omega
  have heq : (0 : ℚ) ≤ ((sub32 (toInt32 (env.clock (cur.clockReads + 1)))
      (toInt32 (env.clock cur.clockReads)) : Int) : ℚ) := by exact_mod_cast he
  have h1 : stillWaiting (toInt32 (env.clock cur.clockReads))
      (toInt32 (env.clock (cur.clockReads + 1))) (env.delay cur.enterWait.delayReads) = false := by
    apply stillWaiting_false_of_le
    have : env.delay cur.enterWait.delayReads * 1000 ≤ 0 := by
      simp only [Cursor.enterWait]
      linarith
    linarith
  have h0 : stillWaiting (toInt32 (env.clock cur.clockReads))
      (toInt32 (env.clock (cur.clockReads + 1))) 0 = false := by
    apply stillWaiting_false_of_le
    linarith
  have hw := waitLoop_exit env _ _ cur.enterWait fuel h1
  have hz := waitLoop_exit { env with delay := fun _ => 0 } (toInt32 (env.clock cur.clockReads))
    (toInt32 (env.clock (cur.clockReads + 1))) cur.enterWait fuel h0
  have hw2 : waitLoop env (toInt32 (env.clock cur.clockReads)) (fuel + 1)
      (toInt32 (env.clock (cur.clockReads + 1)))
      ⟨cur.clockReads + 2, cur.delayReads, cur.flagReads⟩
      = Wait.elapsed (cycleFire env cur 0).time2 (cur.afterCycle 0) := by
    simpa [Cursor.enterWait, cycleFire, time2At, Cursor.afterCycle] using hw
  refine ⟨by simpa [Cursor.enterWait] using hw, by rw [hw, hz], ?_, ?_, ?_⟩
  · intro hs
    subst hs
    rw [threadOneShot_eq, hw2]
    simp [start, cycleFire, time2At, Cursor.afterCycle]
  · intro m_repeat log
    exact repeatCycles_step env m_repeat cur log 0 fuel hw2
  · intro m_repeat reps log
    exact boundedCycles_step env m_repeat reps cur log 0 fuel hw2

/-- Witness for C9: a one-shot timer of -2 s on a clock that advances 1 ms per reading. -/
theorem nonpositive_delay_fires_at_first_check_witness :
    threadOneShot (steadyEnv (construct1 (-2))) 1 = ⟨[⟨0, 1⟩], some ⟨2, 1, 0⟩⟩ :=
  (nonpositive_delay_fires_at_first_check (steadyEnv (construct1 (-2))) start 0
    (by norm_num [steadyEnv, quietEnv, construct1])
    (by simp [steadyEnv, quietEnv, tickingClock, start])
    (by simp [steadyEnv, quietEnv, tickingClock, start])).2.2.1 rfl

/-- Counterexample to C9 as stated: delay zero and a pair of non-decreasing clock readings
that lie `2^31` ms apart.  The `int` difference is negative, the first check enters the
loop body, and the callback is invoked only after a poll. -/
theorem zero_delay_polls_when_clock_jumps :
    (jumpingEnv (construct1 0)).delay 0 ≤ 0 ∧
    (jumpingEnv (construct1 0)).clock 0 ≤ (jumpingEnv (construct1 0)).clock 1 ∧
    cycleCheck (jumpingEnv (construct1 0)) start 0 = true ∧
    threadOneShot (jumpingEnv (construct1 0)) 2 = ⟨[⟨0, 0⟩], some ⟨3, 2, 1⟩⟩ := by
  have hd : ∀ i, (jumpingEnv (construct1 0)).delay i * 1000 = 0 := by
    intro i
    norm_num [jumpingEnv, quietEnv, construct1]
  have h0 : cycleCheck (jumpingEnv (construct1 0)) start 0 = true := by
    rw [cycleCheck_eq, hd, roundF32_zero]
    have : cycleElapsed (jumpingEnv (construct1 0)) start 0 = -2147483648 := by decide
    rw [this]
    have hc : (((-2147483648 : Int)) : ℚ) = -2147483648 := by norm_num
    rw [hc, roundF32_neg_two_pow_31, decide_eq_true_eq, fin_lt_fin]
    norm_num
  have h1 : cycleCheck (jumpingEnv (construct1 0)) start 1 = false := by
    apply cycleCheck_false_of_le
    rw [hd]
    have : cycleElapsed (jumpingEnv (construct1 0)) start 1 = 0 := by decide
    rw [this]
    norm_num
  refine ⟨?_, ?_, h0, ?_⟩
  · simp [jumpingEnv, quietEnv, construct1]
  · simp [jumpingEnv, quietEnv]
  · rw [threadOneShot_of_elapsed _ 1 ?_ (fun i _ => rfl) h1 2 (by decide)]
    · decide
    · intro i hi
      obtain rfl : i = 0 := by omega
      exact h0

/-- C8, as amended. `SetDelay newDelay` called while a wait cycle is in progress changes
the target of that cycle: if the checks before the call read the old delay and find it not
elapsed, and the first check after the call (check `k`) reads the stored `newDelay` and
finds the elapsed time not below `newDelay * 1000.0f`, the callback is invoked at that
check, whether or not the old delay has elapsed.  The comparisons are those of the code, in
`float`. -/
theorem setDelay_takes_effect_in_current_cycle (env : Env) (m_repeat : Bool) (t : Timeout)
    (newDelay : ℚ) (cur : Cursor) (log : List Fire) (k : Nat)
    (hold : ∀ i, i < k → env.delay (cur.delayReads + i) = t.m_delay)
    (hnew : env.delay (cur.delayReads + k) = (SetDelay t newDelay).m_delay)
    (hwait : ∀ i, i < k →
      roundF32 ((cycleElapsed env cur i : Int) : ℚ) < roundF32 (t.m_delay * 1000))
    (hclear : ∀ i, i < k → env.endEarly (cur.flagReads + i) = false)
    (hreach : roundF32 (newDelay * 1000) ≤ roundF32 ((cycleElapsed env cur k : Int) : ℚ))
    (fuel : Nat) (hfuel : k < fuel) :
    repeatCycles env m_repeat fuel cur log
      = (if m_repeat then
          repeatCycles env m_repeat (fuel - 1) (cur.afterCycle k) (log ++ [cycleFire env cur k])
        else ⟨log ++ [cycleFire env cur k], some (cur.afterCycle k)⟩) ∧
    (cur = start →
      threadOneShot env fuel = ⟨[cycleFire env start k], some (start.afterCycle k)⟩) := by
  have hc : ∀ i, i < k → cycleCheck env cur i = true := by
    intro i hi
    rw [cycleCheck_eq, hold i hi]
    simpa using hwait i hi
  have hk : cycleCheck env cur k = false := by
    rw [cycleCheck_eq, hnew]
    simpa [SetDelay] using hreach
  have hw := waitLoop_cycle_elapsed env cur k hc hclear hk fuel hfuel
  obtain ⟨n, rfl⟩ : ∃ n, fuel = n + 1 := ⟨fuel - 1, by omega⟩
  constructor
  · rw [repeatCycles_step env m_repeat cur log k n hw, Nat.add_sub_cancel]
  · intro hs
    subst hs
    exact threadOneShot_of_elapsed env k hc hclear hk (n + 1) hfuel

/-- Witness for C8: a timer of 10 s whose owner calls `SetDelay 0` after the first check of
the wait condition; the callback is invoked at the second check. -/
theorem setDelay_takes_effect_in_current_cycle_witness :
    threadOneShot (setDelayAfter (construct1 10) 1 0) 2
      = ⟨[cycleFire (setDelayAfter (construct1 10) 1 0) start 1], some (start.afterCycle 1)⟩ :=
  (setDelay_takes_effect_in_current_cycle (setDelayAfter (construct1 10) 1 0) false
    (construct1 10) 0 start [] 1
    (fun i hi => by
      obtain rfl : i = 0 := by omega
      simp [setDelayAfter, start])
    (by simp [setDelayAfter, start])
    (fun i hi => by
      obtain rfl : i = 0 := by omega
      rw [cycleElapsed_ticking _ 1786706395136 rfl start 0 (by decide)]
      have h1 : ((((0 : Nat) : Int) + 1 : Int) : ℚ) = 1 := by norm_num
      have h2 : (construct1 10).m_delay * 1000 = 10000 := by norm_num [construct1]
      rw [h1, h2, roundF32_one, roundF32_ten_thousand, fin_lt_fin]
      norm_num)
    (fun i _ => by simp [setDelayAfter, construct1])
    (by
      apply roundF32_mono
      rw [cycleElapsed_ticking _ 1786706395136 rfl start 1 (by decide)]
      norm_num)
    2 (by decide)).2 rfl

/-- Counterexample to C8 as stated: a timer of 10 s on a clock that advances 1 ms per
reading, whose owner calls `SetDelay 0` after the first check of the wait condition.  The
cycle in progress fires at the second check, 2 ms after its start, although the delay in
force when the cycle started was 10 s. -/
theorem setDelay_midwait_changes_target :
    (setDelayAfter (construct1 10) 1 0).delay 0 = 10 ∧
    threadOneShot (setDelayAfter (construct1 10) 1 0) 2 = ⟨[⟨0, 2⟩], some ⟨3, 2, 1⟩⟩ ∧
    ((sub32 2 0 : Int) : ℚ) < 10 * 1000 := by
  refine ⟨?_, ?_, ?_⟩
  · simp [setDelayAfter, construct1]
  · rw [threadOneShot_of_elapsed _ 1 ?_ (fun i _ => rfl) ?_ 2 (by decide)]
    · decide
    · intro i hi
      obtain rfl : i = 0 := by omega
      rw [cycleCheck_eq, cycleElapsed_ticking _ 1786706395136 rfl start 0 (by decide)]
      have h1 : ((((0 : Nat) : Int) + 1 : Int) : ℚ) = 1 := by norm_num
      have h2 : (setDelayAfter (construct1 10) 1 0).delay (start.delayReads + 0) * 1000
          = 10000 := by
        norm_num [setDelayAfter, construct1, start]
      rw [h1, h2, roundF32_one, roundF32_ten_thousand, decide_eq_true_eq, fin_lt_fin]
      norm_num
    · apply cycleCheck_false_of_le
      rw [cycleElapsed_ticking _ 1786706395136 rfl start 1 (by decide)]
      norm_num [setDelayAfter, SetDelay, construct1, start]
  · norm_num [sub32, toInt32]

/-- C2, the code at the failing input: a repeating timer with delay zero whose flag
`m_endEarly` is true from the start.  No wait loop body is entered, so the flag is never
read: after `fuel` cycles the callback has been invoked `fuel` times and the thread has
not returned. -/
theorem repeat_zero_delay_ignores_cancel (fuel : Nat) :
    (∀ i, (steadyEnv (EndTimeout (construct2 0 true))).endEarly i = true) ∧
    (threadRepeat (steadyEnv (EndTimeout (construct2 0 true)))
      (EndTimeout (construct2 0 true)).m_repeat fuel).log.length = fuel ∧
    (threadRepeat (steadyEnv (EndTimeout (construct2 0 true)))
      (EndTimeout (construct2 0 true)).m_repeat fuel).exit = none := by
  refine ⟨fun _ => rfl, ?_⟩
  have h : ∀ (n : Nat) (cur : Cursor) (log : List Fire),
      (repeatCycles (steadyEnv (EndTimeout (construct2 0 true))) true n cur log).log.length
        = log.length + n ∧
      (repeatCycles (steadyEnv (EndTimeout (construct2 0 true))) true n cur log).exit = none := by
    intro n
    induction n with
    | zero => intro cur log; simp [repeatCycles]
    | succ n ih =>
      intro cur log
      have hs : stillWaiting
          (toInt32 ((steadyEnv (EndTimeout (construct2 0 true))).clock cur.clockReads))
          (toInt32 ((steadyEnv (EndTimeout (construct2 0 true))).clock (cur.clockReads + 1)))
          ((steadyEnv (EndTimeout (construct2 0 true))).delay cur.delayReads) = false := by
        apply stillWaiting_false_of_le
        rw [sub32_toInt32]
        have : toInt32 ((steadyEnv (EndTimeout (construct2 0 true))).clock (cur.clockReads + 1)
            - (steadyEnv (EndTimeout (construct2 0 true))).clock cur.clockReads) = 1 := by
          simp only [steadyEnv, quietEnv, tickingClock]
          unfold toInt32
          omega
        rw [this]
        norm_num [steadyEnv, quietEnv, EndTimeout, construct2]
      have hw := waitLoop_exit (steadyEnv (EndTimeout (construct2 0 true))) _ _
        ⟨cur.clockReads + 2, cur.delayReads, cur.flagReads⟩ n hs
      rw [repeatCycles]
      simp only [hw, if_true]
      have := ih ⟨cur.clockReads + 2, cur.delayReads + 1, cur.flagReads⟩
        (log ++ [⟨toInt32 ((steadyEnv (EndTimeout (construct2 0 true))).clock cur.clockReads),
          toInt32 ((steadyEnv (EndTimeout (construct2 0 true))).clock (cur.clockReads + 1))⟩])
      simp only [List.length_append, List.length_singleton] at this
      exact ⟨by rw [this.1]; omega, this.2⟩
  have h0 := h fuel start []
  simp only [List.length_nil, Nat.zero_add] at h0
  exact h0

/-- C6, the code at the failing input: the bounded-repeat thread never reads `m_repeat`
(line 140 tests the pointer `pCallRepeat`, not `*pCallRepeat`), so with `CallRepeat = false`
it behaves as with `true`; with count 3 and delay zero the callback is invoked three times. -/
theorem bounded_ignores_repeat_flag :
    threadBounded (steadyEnv (construct2 0 false)) (construct2 0 false).m_repeat 3 3
      = ⟨[⟨0, 1⟩, ⟨2, 3⟩, ⟨4, 5⟩], some ⟨6, 3, 0⟩⟩ ∧
    ∀ (env : Env) (RepeatCount : Int) (fuel : Nat),
      threadBounded env false RepeatCount fuel = threadBounded env true RepeatCount fuel := by
  constructor
  · have hw := steady_nonpos_wait (construct2 0 false) (le_refl _)
    rw [threadBounded, boundedCycles_step _ _ 3 start [] 0 2 (hw _ _), if_pos (by decide),
      boundedCycles_step _ _ _ _ _ 0 1 (hw _ _), if_pos (by decide),
      boundedCycles_step _ _ _ _ _ 0 0 (hw _ _), if_neg (by decide)]
    decide
  · intro env RepeatCount fuel
    have h : ∀ (n : Nat) (reps : Int) (cur : Cursor) (log : List Fire),
        boundedCycles env false n reps cur log = boundedCycles env true n reps cur log := by
      intro n
      induction n with
      | zero => intro reps cur log; simp [boundedCycles]
      | succ n ih =>
        intro reps cur log
        rw [boundedCycles, boundedCycles]
        simp only [pointerAsBool, ih]
    exact h fuel RepeatCount start []

/-- C5, as amended. For every count `c` that is an `int` other than the least one, under
every clock and every schedule of `EndTimeout` and `SetDelay` calls, and whatever
`CallRepeat` is, the bounded-repeat thread invokes the callback at most `max c 1` times. -/
theorem bounded_fires_at_most_max_count_one (env : Env) (m_repeat : Bool) (c : Int)
    (fuel : Nat) (hlow : -2147483648 < c) (hhigh : c < 2147483648) :
    ((threadBounded env m_repeat c fuel).log.length : Int) ≤ max c 1 := by
  have h := boundedCycles_log_le env m_repeat fuel c start [] hlow hhigh
  simpa [threadBounded] using h

/-- Witness for C5: count 3 on a timer of 5 ms. -/
theorem bounded_fires_at_most_max_count_one_witness :
    ((threadBounded (steadyEnv (construct2 (1 / 200) true)) true 3 20).log.length : Int)
      ≤ max 3 1 :=
  bounded_fires_at_most_max_count_one (steadyEnv (construct2 (1 / 200) true)) true 3 20
    (by decide) (by decide)

/-- Counterexample to C5 as stated: with count 0 and delay zero the callback is invoked
once, which is more than the count. -/
theorem bounded_count_zero_fires_once :
    threadBounded (steadyEnv (construct2 0 true)) true 0 1 = ⟨[⟨0, 1⟩], some ⟨2, 1, 0⟩⟩ ∧
    ¬ (((threadBounded (steadyEnv (construct2 0 true)) true 0 1).log.length : Int) ≤ 0) := by
  have h : threadBounded (steadyEnv (construct2 0 true)) true 0 1
      = ⟨[⟨0, 1⟩], some ⟨2, 1, 0⟩⟩ := by
    rw [threadBounded, boundedCycles_step _ _ 0 start [] 0 0
      (steady_nonpos_wait (construct2 0 true) (le_refl _) _ _), if_neg (by decide)]
    decide
  refine ⟨h, ?_⟩
  rw [h]
  decide

/-- C4. Bounded-repeat thread with `CallRepeat = true` and count `c`, never cancelled and
with every wait elapsing: given enough fuel the thread returns, and the callback has been
invoked exactly `c` times when `c ≥ 1` and exactly once when `c = 0`, that is `max c 1`
times. -/
theorem bounded_fires_exactly_max_count_one (env : Env) (c : Int)
    (hc0 : 0 ≤ c) (hc : c < 2147483648)
    (hnever : ∀ i, env.endEarly i = false) (hw : everyWaitElapses env) :
    ∃ N, ∀ fuel, N ≤ fuel →
      ∃ cur, (threadBounded env true c fuel).exit = some cur ∧
        ((threadBounded env true c fuel).log.length : Int) = max c 1 := by
  rcases Int.eq_ofNat_of_zero_le hc0 with ⟨m, rfl⟩
  cases m with
  | zero =>
    obtain ⟨N, hN⟩ := boundedCycles_zero env true hnever start []
      (hw 0 start CycleStart.first)
    refine ⟨N, fun fuel hfuel => ?_⟩
    obtain ⟨extra, cur, he, hl⟩ := hN fuel hfuel
    refine ⟨cur, ?_, ?_⟩
    · simp only [threadBounded]
      rw [show ((0 : Nat) : Int) = 0 from rfl, he]
    · simp only [threadBounded]
      rw [show ((0 : Nat) : Int) = 0 from rfl, he]
      simp [hl]
  | succ n =>
    obtain ⟨N, hN⟩ := boundedCycles_counts env true hnever hw n (by push_cast at hc; omega)
      0 start [] CycleStart.first
    refine ⟨N, fun fuel hfuel => ?_⟩
    obtain ⟨extra, cur, he, hl⟩ := hN fuel hfuel
    refine ⟨cur, ?_, ?_⟩
    · simp only [threadBounded]
      rw [show ((n + 1 : Nat) : Int) = (n : Int) + 1 from rfl, he]
    · simp only [threadBounded]
      rw [show ((n + 1 : Nat) : Int) = (n : Int) + 1 from rfl, he]
      simp only [List.nil_append, hl]
      rw [max_eq_left (by omega)]
      push_cast
      rfl

/-- Witness for C4: count 3 on a timer of 5 ms whose clock advances 1 ms per reading. -/
theorem bounded_fires_exactly_max_count_one_witness :
    ∃ N, ∀ fuel, N ≤ fuel →
      ∃ cur, (threadBounded (steadyEnv (construct2 (1 / 200) true)) true 3 fuel).exit = some cur ∧
        ((threadBounded (steadyEnv (construct2 (1 / 200) true)) true 3 fuel).log.length : Int)
          = max 3 1 :=
  bounded_fires_exactly_max_count_one (steadyEnv (construct2 (1 / 200) true)) 3
    (by decide) (by decide) (fun _ => rfl)
    (fun _ cur _ => ⟨4, by
      apply cycleCheck_false_of_le
      rw [cycleElapsed_ticking _ 1786706395136 rfl cur 4 (by decide)]
      norm_num [steadyEnv, quietEnv, construct2]⟩)

end Timeout
